import Mathlib

/-!
# Verification of the ethsnarks Poseidon R1CS gadget

Shallow embedding of `src/gadgets/poseidon.hpp` (ethsnarks): the quintic
S-box gadget (`FifthPower_gadget`), the Poseidon round gadget
(`Poseidon_Round`), the master permutation gadget
(`Master_Poseidon_gadget_T`), the instance stamper (`Poseidon_gadget_T`),
and the constant/matrix generators (`poseidon_constants_fill`,
`poseidon_matrix_fill`, `poseidon_params`).

Variables are dense natural-number indices; index `0` is the constant-one
variable (`libsnark::ONE`).  A protoboard with `n` allocated variables has
live indices `1..n`; allocating returns index `n+1`.  A linear combination
is a formal list of `(variable, coefficient)` terms; `add_term` appends a
term and `operator+` merges two term lists sorted by variable index,
summing coefficients when indices collide, exactly as
`libsnark::linear_combination` does.  The protoboard's witness table
(`pb.val`) is modelled as a write log: writing prepends a pair, reading
returns the most recent write (default 0, matching the zero-initialised
`full_variable_assignment`).
-/

set_option linter.unusedSectionVars false
set_option linter.unusedVariables false

namespace Ethsnarks

variable {F : Type} [CommRing F]

/-- A linear combination: a list of (variable index, coefficient) terms. -/
abbrev LC (F : Type) := List (Nat × F)

/-- The protoboard witness table: a write log, most recent write first. -/
abbrev Store (F : Type) := List (Nat × F)

/-- Read a variable's value from the witness table (`pb.val(i)` as rvalue);
unwritten entries read as 0. -/
def Store.get [Zero F] : Store F → Nat → F
  | [], _ => 0
  | (j, x) :: σ, i => if i = j then x else Store.get σ i

/-- Write a variable's value (`pb.val(i) = x`). -/
def Store.set (σ : Store F) (i : Nat) (x : F) : Store F :=
  (i, x) :: σ

/-- Value of a variable index under a witness table; index 0 is the
constant 1 (`libsnark::ONE`). -/
def valAt (σ : Store F) (i : Nat) : F :=
  if i = 0 then 1 else σ.get i

/-- Evaluate a linear combination under a witness table (`lc_val`). -/
def lcVal (σ : Store F) (lc : LC F) : F :=
  (lc.map (fun p => p.2 * valAt σ p.1)).sum

/-- Scalar multiplication of a linear combination
(`libsnark linear_combination * FieldT`). -/
def lcSmul (lc : LC F) (a : F) : LC F :=
  lc.map (fun p => (p.1, p.2 * a))

/-- Recursion core of `lcAdd`, fuelled by the total length of the two
term lists so that the recursion is structural; the fuel never runs out
when it starts at the total length. -/
def lcAddFuel : Nat → LC F → LC F → LC F
  | fuel, xs, ys =>
    match xs, ys with
    | [], ys => ys
    | x :: xs, [] => x :: xs
    | (i, a) :: xs, (j, b) :: ys =>
      match fuel with
      | 0 => ((i, a) :: xs) ++ ((j, b) :: ys)
      | fuel + 1 =>
        if i < j then (i, a) :: lcAddFuel fuel xs ((j, b) :: ys)
        else if j < i then (j, b) :: lcAddFuel fuel ((i, a) :: xs) ys
        else (i, a + b) :: lcAddFuel fuel xs ys

/-- Addition of linear combinations (`libsnark linear_combination
operator+`): a merge of the two term lists — sorted by variable index —
that sums the coefficients when the head indices coincide. -/
def lcAdd (xs ys : LC F) : LC F :=
  lcAddFuel (xs.length + ys.length) xs ys

theorem lcAddFuel_nil_left (f : Nat) (ys : LC F) : lcAddFuel f [] ys = ys := by
  cases f <;> rfl

theorem lcAddFuel_nil_right (f : Nat) (x : Nat × F) (xs : LC F) :
    lcAddFuel f (x :: xs) [] = x :: xs := by
  cases f <;> rfl

theorem lcAddFuel_irrel : ∀ (f g : Nat) (xs ys : LC F),
    xs.length + ys.length ≤ f → xs.length + ys.length ≤ g →
    lcAddFuel f xs ys = lcAddFuel g xs ys := by
  intro f
  induction f with
  | zero =>
    intro g xs ys hf hg
    match xs, ys with
    | [], ys => rw [lcAddFuel_nil_left, lcAddFuel_nil_left]
    | x :: xs, [] => rw [lcAddFuel_nil_right, lcAddFuel_nil_right]
    | x :: xs, y :: ys => simp at hf
  | succ f ih =>
    intro g xs ys hf hg
    match xs, ys with
    | [], ys => rw [lcAddFuel_nil_left, lcAddFuel_nil_left]
    | x :: xs, [] => rw [lcAddFuel_nil_right, lcAddFuel_nil_right]
    | (i, a) :: xs, (j, b) :: ys =>
      simp only [List.length_cons] at hf hg
      obtain ⟨g', rfl⟩ : ∃ g', g = g' + 1 := ⟨g - 1, by omega⟩
      show (if i < j then (i, a) :: lcAddFuel f xs ((j, b) :: ys)
            else if j < i then (j, b) :: lcAddFuel f ((i, a) :: xs) ys
            else (i, a + b) :: lcAddFuel f xs ys)
        = (if i < j then (i, a) :: lcAddFuel g' xs ((j, b) :: ys)
            else if j < i then (j, b) :: lcAddFuel g' ((i, a) :: xs) ys
            else (i, a + b) :: lcAddFuel g' xs ys)
      by_cases h1 : i < j
      · rw [if_pos h1, if_pos h1]
        rw [ih g' xs ((j, b) :: ys) (by simp only [List.length_cons]; omega) (by simp only [List.length_cons]; omega)]
      · rw [if_neg h1, if_neg h1]
        by_cases h2 : j < i
        · rw [if_pos h2, if_pos h2]
          rw [ih g' ((i, a) :: xs) ys (by simp only [List.length_cons]; omega) (by simp only [List.length_cons]; omega)]
        · rw [if_neg h2, if_neg h2]
          rw [ih g' xs ys (by omega) (by omega)]

theorem lcAdd_nil_left (ys : LC F) : lcAdd [] ys = ys :=
  lcAddFuel_nil_left _ ys

theorem lcAdd_nil_right (x : Nat × F) (xs : LC F) : lcAdd (x :: xs) [] = x :: xs :=
  lcAddFuel_nil_right _ x xs

theorem lcAdd_cons_cons (i : Nat) (a : F) (xs : LC F) (j : Nat) (b : F) (ys : LC F) :
    lcAdd ((i, a) :: xs) ((j, b) :: ys)
      = if i < j then (i, a) :: lcAdd xs ((j, b) :: ys)
        else if j < i then (j, b) :: lcAdd ((i, a) :: xs) ys
        else (i, a + b) :: lcAdd xs ys := by
  show (if i < j then (i, a) :: lcAddFuel (xs.length + 1 + ys.length) xs ((j, b) :: ys)
        else if j < i then (j, b) :: lcAddFuel (xs.length + 1 + ys.length) ((i, a) :: xs) ys
        else (i, a + b) :: lcAddFuel (xs.length + 1 + ys.length) xs ys) = _
  by_cases h1 : i < j
  · rw [if_pos h1, if_pos h1]
    congr 1
    exact lcAddFuel_irrel _ _ _ _ (by simp only [List.length_cons]; omega)
      (by simp only [List.length_cons]; omega)
  · rw [if_neg h1, if_neg h1]
    by_cases h2 : j < i
    · rw [if_pos h2, if_pos h2]
      exact rfl
    · rw [if_neg h2, if_neg h2]
      congr 1
      exact lcAddFuel_irrel _ _ _ _ (by omega) (by omega)

/-- One R1CS constraint `A * B = C`. -/
structure Constraint (F : Type) where
  A : LC F
  B : LC F
  C : LC F
  deriving DecidableEq

/-- A constraint is satisfied under a witness table. -/
def satisfied (σ : Store F) (c : Constraint F) : Prop :=
  lcVal σ c.A * lcVal σ c.B = lcVal σ c.C

/-- Every variable mentioned by the linear combination has index `≤ n`. -/
def lcBound (n : Nat) (lc : LC F) : Prop :=
  ∀ p ∈ lc, p.1 ≤ n

/-- Every variable mentioned by the constraint has index `≤ n`. -/
def cstBound (n : Nat) (c : Constraint F) : Prop :=
  lcBound n c.A ∧ lcBound n c.B ∧ lcBound n c.C

/-- `σ'` agrees with `σ` on every index `≤ n`. -/
def agree (n : Nat) (σ σ' : Store F) : Prop :=
  ∀ i, i ≤ n → σ'.get i = σ.get i

/-! ## FifthPower_gadget

The S-box gadget allocates three fresh variables `x2, x4, x5`. -/

/-- The three variables owned by one `FifthPower_gadget`. -/
structure Sbox where
  x2 : Nat
  x4 : Nat
  x5 : Nat
  deriving DecidableEq

/-- `FifthPower_gadget::generate_r1cs_constraints`: the three constraints
`x*x = x2`, `x2*x2 = x4`, `x*x4 = x5` for an input linear combination `x`. -/
def sboxConstraints (x : LC F) (s : Sbox) : List (Constraint F) :=
  [⟨x, x, [(s.x2, 1)]⟩,
   ⟨[(s.x2, 1)], [(s.x2, 1)], [(s.x4, 1)]⟩,
   ⟨x, [(s.x4, 1)], [(s.x5, 1)]⟩]

/-- `FifthPower_gadget::generate_r1cs_witness`: assign `x2 := v²`,
`x4 := (x2)²`, `x5 := x4·v` for the concrete input value `v`. -/
def sboxWitness (σ : Store F) (s : Sbox) (v : F) : Store F :=
  let v2 := v * v
  let v4 := v2 * v2
  let v5 := v4 * v
  ((σ.set s.x2 v2).set s.x4 v4).set s.x5 v5

/-- `Poseidon_Round::make_sboxes`: allocate `n` S-box gadgets on a
protoboard holding `nv` variables; returns the gadgets and the new
variable count. -/
def make_sboxes : Nat → Nat → List Sbox × Nat
  | nv, 0 => ([], nv)
  | nv, n + 1 =>
    let s : Sbox := ⟨nv + 1, nv + 2, nv + 3⟩
    let r := make_sboxes (nv + 3) n
    (s :: r.1, r.2)

/-! ## Poseidon_Round -/

/-- `Poseidon_Round::make_outputs`: output `i` is a linear combination of
the constant term (on variable 0, only when `nSBox < t`), the S-box result
variables weighted by the matrix row, and the merged-in scaled remaining
state entries. -/
def make_outputs (t nSBox nInputs nOutputs : Nat) (Ci : F) (M : Nat → F)
    (state : List (LC F)) (sboxes : List Sbox) : List (LC F) :=
  (List.range nOutputs).map (fun i =>
    let off := i * t
    let constant_term :=
      ((List.range (t - nSBox)).map (fun j => Ci * M (off + nSBox + j))).sum
    let lc0 : LC F := if nSBox < t then [(0, constant_term)] else []
    let lc1 := lc0 ++
      (List.range nSBox).map (fun s => ((sboxes.getD s ⟨0,0,0⟩).x5, M (off + s)))
    (List.range (nInputs - nSBox)).foldl
      (fun lc k => lcAdd lc (lcSmul (state.getD (nSBox + k) []) (M (off + nSBox + k))))
      lc1)

/-- One constructed `Poseidon_Round` gadget. -/
structure Round (F : Type) where
  Ci : F
  nInputs : Nat
  state : List (LC F)
  sboxes : List Sbox
  outputs : List (LC F)

/-- `Poseidon_Round` constructor on a protoboard holding `nv` variables:
allocate the S-boxes, then compute the output linear combinations. -/
def mkRound (t nSBox nInputs nOutputs : Nat) (Ci : F) (M : Nat → F)
    (state : List (LC F)) (nv : Nat) : Round F × Nat :=
  let r := make_sboxes nv nSBox
  (⟨Ci, nInputs, state, r.1, make_outputs t nSBox nInputs nOutputs Ci M state r.1⟩, r.2)

/-- `Poseidon_Round::generate_r1cs_constraints`: S-box `h` is driven by
`state[h] + C_i` when `h < nInputs`, else by the pure constant `C_i`. -/
def roundConstraintsLoop (Ci : F) (state : List (LC F)) (nInputs : Nat) :
    List Sbox → Nat → List (Constraint F)
  | [], _ => []
  | s :: rest, h =>
    sboxConstraints
      (if h < nInputs then lcAdd (state.getD h []) [(0, Ci)] else [(0, Ci)]) s
      ++ roundConstraintsLoop Ci state nInputs rest (h + 1)

/-- `Poseidon_Round::generate_r1cs_witness`: feed each S-box the value
`C_i` (plus the evaluated state entry when `h < nInputs`). -/
def roundWitnessLoop (Ci : F) (state : List (LC F)) (nInputs : Nat) :
    List Sbox → Nat → Store F → Store F
  | [], _, σ => σ
  | s :: rest, h, σ =>
    let value := Ci + (if h < nInputs then lcVal σ (state.getD h []) else 0)
    roundWitnessLoop Ci state nInputs rest (h + 1) (sboxWitness σ s value)

/-- Constraints emitted by one round. -/
def Round.constraints (r : Round F) : List (Constraint F) :=
  roundConstraintsLoop r.Ci r.state r.nInputs r.sboxes 0

/-- Witness generation of one round. -/
def Round.witness (r : Round F) (σ : Store F) : Store F :=
  roundWitnessLoop r.Ci r.state r.nInputs r.sboxes 0 σ

/-! ## Master_Poseidon_gadget_T -/

/-- `partial_begin = param_F / 2`. -/
def partial_begin (Fp : Nat) : Nat := Fp / 2

/-- `partial_end = partial_begin + param_P`. -/
def partial_end (Fp P : Nat) : Nat := partial_begin Fp + P

/-- `total_rounds = param_F + param_P`. -/
def total_rounds (Fp P : Nat) : Nat := Fp + P

/-- `Master_Poseidon_gadget_T::make_rounds`: construct `k` rounds starting
at round index `i`, chaining each round's outputs into the next round's
state; returns the rounds, the final chained state and the new variable
count.  All rounds of the run share the shape `(t, nSBox, nIns, nOuts)`. -/
def make_rounds_go (t nSBox nIns nOuts : Nat) (C M : Nat → F) :
    Nat → Nat → List (LC F) → Nat → List (Round F) × List (LC F) × Nat
  | 0, _, state, nv => ([], state, nv)
  | k + 1, i, state, nv =>
    let r := mkRound t nSBox nIns nOuts (C i) M state nv
    let rest := make_rounds_go t nSBox nIns nOuts C M k (i + 1) r.1.outputs r.2
    (r.1 :: rest.1, rest.2.1, rest.2.2)

/-- A constructed `Master_Poseidon_gadget_T`. -/
structure Master (F : Type) where
  firstRound : Round F
  prefixRounds : List (Round F)
  partialRounds : List (Round F)
  suffixRounds : List (Round F)
  lastRound : Round F
  outputVars : List Nat
  numVars : Nat

/-- `Master_Poseidon_gadget_T` constructor on a fresh protoboard whose
first `nIn` variables are the input variables: the first round (index 0)
ingests the `nIn` inputs, rounds `[1, F/2)` are full, rounds
`[F/2, F/2+P)` are partial (`nSBox = c`), rounds `[F/2+P, F+P-1)` are
full, and round `F+P-1` squeezes to `nOut` outputs; when
`constrainOutputs`, `nOut` fresh output variables are allocated last. -/
def mkMaster (t c Fp P nIn nOut : Nat) (constrainOutputs : Bool)
    (C M : Nat → F) : Master F :=
  let inputs : List (LC F) := (List.range nIn).map (fun k => [(k + 1, 1)])
  let fr := mkRound t t nIn t (C 0) M inputs nIn
  let pre :=
    make_rounds_go t t t t C M (partial_begin Fp - 1) 1 fr.1.outputs fr.2
  let par :=
    make_rounds_go t c t t C M P (partial_begin Fp) pre.2.1 pre.2.2
  let suf :=
    make_rounds_go t t t t C M (total_rounds Fp P - 1 - partial_end Fp P)
      (partial_end Fp P) par.2.1 par.2.2
  let lr := mkRound t t t nOut (C (total_rounds Fp P - 1)) M suf.2.1 suf.2.2
  let outv :=
    if constrainOutputs then (List.range nOut).map (fun k => lr.2 + 1 + k) else []
  ⟨fr.1, pre.1, par.1, suf.1, lr.1, outv,
    lr.2 + (if constrainOutputs then nOut else 0)⟩

/-- The rounds owned by the master, in emission order. -/
def Master.rounds (m : Master F) : List (Round F) :=
  m.firstRound :: (m.prefixRounds ++ m.partialRounds ++ m.suffixRounds ++ [m.lastRound])

/-- Run a list of rounds' witness generators in order. -/
def chainWitness (rs : List (Round F)) (σ : Store F) : Store F :=
  rs.foldl (fun σ r => r.witness σ) σ

/-- The constraints of a list of rounds, in emission order. -/
def chainConstraints (rs : List (Round F)) : List (Constraint F) :=
  (rs.map Round.constraints).flatten

/-- `Master_Poseidon_gadget_T::generate_r1cs_constraints`: every round's
constraints in order, then (when outputs are constrained) one identity
constraint `lc * 1 = output_var` per output. -/
def Master.constraints (m : Master F) : List (Constraint F) :=
  chainConstraints m.rounds ++
    (m.lastRound.outputs.zip m.outputVars).map
      (fun p => ⟨p.1, [(0, 1)], [(p.2, 1)]⟩)

/-- `Master_Poseidon_gadget_T::generate_r1cs_witness`: run every round's
witness in order, then write each constrained output variable with the
evaluated output linear combination. -/
def Master.witness (m : Master F) (σ : Store F) : Store F :=
  (m.lastRound.outputs.zip m.outputVars).foldl
    (fun σ p => σ.set p.2 (lcVal σ p.1)) (chainWitness m.rounds σ)

/-! ## Constant and matrix generators

`BLAKE2b` is an external collaborator: it enters as an opaque function
`blake : Nat → List Nat → List Nat` mapping an output length and a data
byte string to a digest of that length.  Bytes are naturals; a seed
string enters as its ASCII bytes. -/

/-- Little-endian interpretation of a byte string as a natural number. -/
def littleEndianNat : List Nat → Nat
  | [] => 0
  | b :: bs => b + 256 * littleEndianNat bs

/-- Modelled from the spec: `bytes_to_FieldT_littleendian` (declared in
the repository's utils header, outside the provided sources) interprets a
byte buffer little-endian and reduces modulo the field characteristic
`p = |F|`. -/
def bytes_to_FieldT_littleendian (p : Nat) (bytes : List Nat) : ZMod p :=
  (littleEndianNat bytes : ZMod p)

/-- `n_bits_roundedup = FieldT::size_in_bits() + (8 - size_in_bits % 8)`:
note this adds a full 8 when the bit size is already a multiple of 8. -/
def n_bits_roundedup (sizeInBits : Nat) : Nat :=
  sizeInBits + (8 - sizeInBits % 8)

/-- `output_size = n_bits_roundedup / 8`: bytes consumed per element. -/
def output_size (sizeInBits : Nat) : Nat :=
  n_bits_roundedup sizeInBits / 8

/-- The chained raw digests of the loop body of `poseidon_constants_fill`:
`k` further digests, each obtained by re-hashing the previous raw output
buffer. -/
def pcf_loop (blake : Nat → List Nat → List Nat) (L : Nat) :
    Nat → List Nat → List (List Nat)
  | 0, _ => []
  | k + 1, prev =>
    let o := blake L prev
    o :: pcf_loop blake L k o

/-- `poseidon_constants_fill(seed, n_constants, result)`: hash the seed to
an `output_size`-byte digest, then repeatedly re-hash the previous digest
buffer, decoding each digest little-endian into the field.  (The source
runs its loop `n_constants - 1` times on an `unsigned`; this mirrors it
for `n_constants ≥ 1`.) -/
def poseidon_constants_fill (p sizeInBits : Nat)
    (blake : Nat → List Nat → List Nat) (seed : List Nat) (n_constants : Nat) :
    List (ZMod p) :=
  let L := output_size sizeInBits
  let first := blake L seed
  (first :: pcf_loop blake L (n_constants - 1) first).map
    (bytes_to_FieldT_littleendian p)

/-- `poseidon_matrix_fill(seed, t, result)`: derive `2t` constants from
the seed, then emit the row-major Cauchy matrix
`M[i·t + j] = (c[i] - c[t+j])⁻¹`. -/
def poseidon_matrix_fill (p sizeInBits : Nat)
    (blake : Nat → List Nat → List Nat) (seed : List Nat) (t : Nat) :
    List (ZMod p) :=
  let c := poseidon_constants_fill p sizeInBits blake seed (t * 2)
  ((List.range t).map (fun i =>
    (List.range t).map (fun j => (c.getD i 0 - c.getD (t + j) 0)⁻¹))).flatten

/-- ASCII bytes of a seed string (`seed.c_str()`). -/
def strBytes (s : String) : List Nat :=
  s.toList.map Char.toNat

/-- The table of memoized constants (`struct PoseidonConstants`). -/
structure PoseidonConstants (F : Type) where
  C : List F
  M : List F

/-- `poseidon_params<t, F, P>()`: fill `C` from seed
`"poseidon_constants"` with `F + P` elements and `M` from seed
`"poseidon_matrix_0000"` for state size `t`. -/
def poseidon_params (p sizeInBits : Nat)
    (blake : Nat → List Nat → List Nat) (t Fp P : Nat) :
    PoseidonConstants (ZMod p) :=
  ⟨poseidon_constants_fill p sizeInBits blake (strBytes "poseidon_constants") (Fp + P),
   poseidon_matrix_fill p sizeInBits blake (strBytes "poseidon_matrix_0000") t⟩

/-! ## Poseidon_gadget_T: the instance stamper -/

/-- A caller protoboard: its variable count and constraint list. -/
structure UserPB (F : Type) where
  numVars : Nat
  constraints : List (Constraint F)

/-- The master's scratch protoboard as shared state: variable count,
constraint list, and witness table. -/
structure MasterPB (F : Type) where
  numVars : Nat
  constraints : List (Constraint F)
  vals : Store F

/-- Per-call state of a stamped `Poseidon_gadget_T` instance. -/
structure PoseidonInstance where
  instance_inputs : List Nat
  instance_variables_offset : Nat

/-- `Poseidon_gadget_T::translate`: the index translation `τ` from master
variable ids to caller variable ids. -/
def translate (g : PoseidonInstance) (index : Nat) : Nat :=
  if index = 0 then 0
  else if index ≤ g.instance_inputs.length then
    g.instance_inputs.getD (index - 1) 0
  else
    g.instance_variables_offset + (index - (1 + g.instance_inputs.length))

/-- `Poseidon_gadget_T` constructor: record
`instance_variables_offset = pb.num_variables() + 1`, then allocate
`master.pb.num_variables() - in_inputs.size()` fresh variables on the
caller's protoboard; no constraint is touched. -/
def mkInstance (pb : UserPB F) (in_inputs : List Nat) (masterNumVars : Nat) :
    PoseidonInstance × UserPB F :=
  let g : PoseidonInstance := ⟨in_inputs, pb.numVars + 1⟩
  (g, { pb with numVars := pb.numVars + (masterNumVars - in_inputs.length) })

/-- A linear combination with every variable id passed through `τ`. -/
def translateLC (g : PoseidonInstance) (lc : LC F) : LC F :=
  lc.map (fun p => (translate g p.1, p.2))

/-- A master constraint as seen through the translator wrapper
(`r1cs_constraint_light_instance`). -/
def translateCst (g : PoseidonInstance) (c : Constraint F) : Constraint F :=
  ⟨translateLC g c.A, translateLC g c.B, translateLC g c.C⟩

/-- `Poseidon_gadget_T::generate_r1cs_constraints`: append every master
constraint, wrapped in the translator, to the caller's protoboard; the
master protoboard is only read. -/
def instance_generate_r1cs_constraints (g : PoseidonInstance)
    (mpb : MasterPB F) (pb : UserPB F) : MasterPB F × UserPB F :=
  (mpb,
   { pb with constraints := pb.constraints ++ mpb.constraints.map (translateCst g) })

/-- `Poseidon_gadget_T::generate_r1cs_witness`: write the caller's input
values into the master's placeholder slots `1..nInputs`, run the master's
witness on the master protoboard, then copy the auxiliary values
`master.pb.val(1 + nInputs + i)` into the caller's fresh block. -/
def instance_generate_r1cs_witness (g : PoseidonInstance) (m : Master F)
    (mpb : MasterPB F) (uvals : Store F) : MasterPB F × Store F :=
  let n := g.instance_inputs.length
  let mv1 := (List.range n).foldl
    (fun σ i => σ.set (1 + i) (uvals.get (g.instance_inputs.getD i 0))) mpb.vals
  let mv2 := m.witness mv1
  let uv' := (List.range (mpb.numVars - n)).foldl
    (fun σ i => σ.set (g.instance_variables_offset + i) (mv2.get (1 + n + i))) uvals
  ({ mpb with vals := mv2 }, uv')

/-- `Poseidon_gadget_T::result`: the first output variable after
translation; reads nothing mutable. -/
def instance_result (g : PoseidonInstance) (m : Master F) : Nat :=
  translate g (m.outputVars.getD 0 0)

/-- `Poseidon_gadget_T::swapAB`: under a once-only flag, swap the `A` and
`B` linear combinations of every shared master constraint.  Returns the
new flag and the new master state; a second call finds the flag set and
changes nothing. -/
def swapAB (flag : Bool) (mpb : MasterPB F) : Bool × MasterPB F :=
  if flag then (flag, mpb)
  else (true, { mpb with constraints := mpb.constraints.map (fun c => ⟨c.B, c.A, c.C⟩) })

/-! ## Construction-time assertions

`Poseidon_Round`'s constructor asserts `nInputs <= param_t` and
`nOutputs <= param_t`; these are the only parameter checks in the
gadget. -/

/-- The `assert`s evaluated by one `Poseidon_Round` constructor
(`nOutputs` is the length of the round's output vector). -/
def Round.asserts (t : Nat) (r : Round F) : Bool :=
  decide (r.nInputs ≤ t) && decide (r.outputs.length ≤ t)

/-- All assertions evaluated while constructing the master gadget. -/
def masterAsserts (t c Fp P nIn nOut : Nat) (C M : Nat → F) : Bool :=
  (mkMaster t c Fp P nIn nOut true C M).rounds.all (Round.asserts t)

/-! ## Basic lemmas about stores and linear combinations -/

theorem Store.get_set_self (σ : Store F) (i : Nat) (x : F) :
    (σ.set i x).get i = x := by
  simp [Store.set, Store.get]

theorem Store.get_set_ne (σ : Store F) (i j : Nat) (x : F) (h : j ≠ i) :
    (σ.set i x).get j = σ.get j := by
  simp [Store.set, Store.get, h]

theorem lcVal_nil (σ : Store F) : lcVal σ ([] : LC F) = 0 := rfl

theorem lcVal_cons (σ : Store F) (p : Nat × F) (l : LC F) :
    lcVal σ (p :: l) = p.2 * valAt σ p.1 + lcVal σ l := rfl

theorem lcVal_append (σ : Store F) (a b : LC F) :
    lcVal σ (a ++ b) = lcVal σ a + lcVal σ b := by
  simp [lcVal]

theorem lcVal_lcAddFuel (σ : Store F) :
    ∀ (f : Nat) (a b : LC F), a.length + b.length ≤ f →
      lcVal σ (lcAddFuel f a b) = lcVal σ a + lcVal σ b := by
  intro f
  induction f with
  | zero =>
    intro a b hf
    match a, b with
    | [], b => show lcVal σ b = lcVal σ [] + lcVal σ b; rw [lcVal_nil]; ring
    | x :: a, [] =>
      show lcVal σ (x :: a) = lcVal σ (x :: a) + lcVal σ []
      rw [lcVal_nil]; ring
    | x :: a, y :: b => simp at hf
  | succ f ih =>
    intro a b hf
    match a, b with
    | [], b => show lcVal σ b = lcVal σ [] + lcVal σ b; rw [lcVal_nil]; ring
    | x :: a, [] =>
      show lcVal σ (x :: a) = lcVal σ (x :: a) + lcVal σ []
      rw [lcVal_nil]; ring
    | (i, x) :: a, (j, y) :: b =>
      simp only [List.length_cons] at hf
      show lcVal σ (if i < j then (i, x) :: lcAddFuel f a ((j, y) :: b)
          else if j < i then (j, y) :: lcAddFuel f ((i, x) :: a) b
          else (i, x + y) :: lcAddFuel f a b)
        = lcVal σ ((i, x) :: a) + lcVal σ ((j, y) :: b)
      by_cases h1 : i < j
      · rw [if_pos h1, lcVal_cons,
          ih a ((j, y) :: b) (by simp only [List.length_cons]; omega)]
        simp only [lcVal_cons]
        ring
      · rw [if_neg h1]
        by_cases h2 : j < i
        · rw [if_pos h2, lcVal_cons,
            ih ((i, x) :: a) b (by simp only [List.length_cons]; omega)]
          simp only [lcVal_cons]
          ring
        · rw [if_neg h2, lcVal_cons, ih a b (by omega)]
          have hji : j = i := by omega
          subst hji
          simp only [lcVal_cons]
          ring

theorem lcVal_lcAdd (σ : Store F) (a b : LC F) :
    lcVal σ (lcAdd a b) = lcVal σ a + lcVal σ b :=
  lcVal_lcAddFuel σ (a.length + b.length) a b (le_refl _)

theorem lcVal_lcSmul (σ : Store F) (l : LC F) (a : F) :
    lcVal σ (lcSmul l a) = lcVal σ l * a := by
  induction l with
  | nil => simp [lcSmul, lcVal]
  | cons p l ih =>
    simp only [lcSmul, List.map_cons, lcVal_cons] at *
    rw [ih]; ring

theorem lcBound_nil (n : Nat) : lcBound n ([] : LC F) := by
  intro p hp; cases hp

theorem lcBound_append {n : Nat} {a b : LC F}
    (ha : lcBound n a) (hb : lcBound n b) : lcBound n (a ++ b) := by
  intro p hp
  rcases List.mem_append.mp hp with h | h
  · exact ha p h
  · exact hb p h

theorem lcBound_mono {n m : Nat} {a : LC F} (h : lcBound n a) (hnm : n ≤ m) :
    lcBound m a := fun p hp => le_trans (h p hp) hnm

theorem lcBound_lcAddFuel {n : Nat} :
    ∀ (f : Nat) (a b : LC F), a.length + b.length ≤ f →
      lcBound n a → lcBound n b → lcBound n (lcAddFuel f a b) := by
  intro f
  induction f with
  | zero =>
    intro a b hf ha hb
    match a, b with
    | [], b => exact hb
    | x :: a, [] => exact ha
    | x :: a, y :: b => simp at hf
  | succ f ih =>
    intro a b hf ha hb
    match a, b with
    | [], b => exact hb
    | x :: a, [] => exact ha
    | (i, x) :: a, (j, y) :: b =>
      simp only [List.length_cons] at hf
      show lcBound n (if i < j then (i, x) :: lcAddFuel f a ((j, y) :: b)
          else if j < i then (j, y) :: lcAddFuel f ((i, x) :: a) b
          else (i, x + y) :: lcAddFuel f a b)
      by_cases h1 : i < j
      · rw [if_pos h1]
        intro p hp
        rcases List.mem_cons.mp hp with h | h
        · subst h; exact ha _ (List.mem_cons_self _ _)
        · exact ih a ((j, y) :: b) (by simp only [List.length_cons]; omega)
            (fun q hq => ha q (List.mem_cons_of_mem _ hq)) hb p h
      · rw [if_neg h1]
        by_cases h2 : j < i
        · rw [if_pos h2]
          intro p hp
          rcases List.mem_cons.mp hp with h | h
          · subst h; exact hb _ (List.mem_cons_self _ _)
          · exact ih ((i, x) :: a) b (by simp only [List.length_cons]; omega) ha
              (fun q hq => hb q (List.mem_cons_of_mem _ hq)) p h
        · rw [if_neg h2]
          intro p hp
          rcases List.mem_cons.mp hp with h | h
          · subst h; exact ha (i, x) (List.mem_cons_self _ _)
          · exact ih a b (by omega)
              (fun q hq => ha q (List.mem_cons_of_mem _ hq))
              (fun q hq => hb q (List.mem_cons_of_mem _ hq)) p h

theorem lcBound_lcAdd {n : Nat} {a b : LC F}
    (ha : lcBound n a) (hb : lcBound n b) : lcBound n (lcAdd a b) :=
  lcBound_lcAddFuel (a.length + b.length) a b (le_refl _) ha hb

theorem lcBound_lcSmul {n : Nat} {a : LC F} (ha : lcBound n a) (x : F) :
    lcBound n (lcSmul a x) := by
  intro p hp
  rcases List.mem_map.mp hp with ⟨q, hq, hpq⟩
  subst hpq
  exact ha q hq

theorem lcBound_getD {n : Nat} {state : List (LC F)}
    (h : ∀ lc ∈ state, lcBound n lc) (i : Nat) : lcBound n (state.getD i []) := by
  by_cases hi : i < state.length
  · rw [List.getD_eq_getElem _ _ hi]
    exact h _ (List.getElem_mem hi)
  · rw [List.getD_eq_default _ _ (Nat.le_of_not_lt hi)]
    exact lcBound_nil n

theorem agree_refl (n : Nat) (σ : Store F) : agree n σ σ := fun _ _ => rfl

theorem agree_mono {n m : Nat} {σ σ' : Store F} (h : agree n σ σ') (hmn : m ≤ n) :
    agree m σ σ' := fun i hi => h i (le_trans hi hmn)

theorem agree_trans {n : Nat} {σ₁ σ₂ σ₃ : Store F}
    (h₁ : agree n σ₁ σ₂) (h₂ : agree n σ₂ σ₃) : agree n σ₁ σ₃ :=
  fun i hi => (h₂ i hi).trans (h₁ i hi)

theorem agree_set {n i : Nat} {σ : Store F} (x : F) (h : n < i) :
    agree n σ (σ.set i x) := by
  intro j hj
  exact Store.get_set_ne σ i j x (by omega)

theorem valAt_agree {n : Nat} {σ σ' : Store F} (h : agree n σ σ')
    {i : Nat} (hi : i ≤ n) : valAt σ' i = valAt σ i := by
  unfold valAt
  by_cases h0 : i = 0
  · simp [h0]
  · simp only [h0, if_false]
    exact h i hi

theorem lcVal_agree {n : Nat} {σ σ' : Store F} (h : agree n σ σ')
    {lc : LC F} (hb : lcBound n lc) : lcVal σ' lc = lcVal σ lc := by
  induction lc with
  | nil => rfl
  | cons p l ih =>
    rw [lcVal_cons, lcVal_cons,
      valAt_agree h (hb p (List.mem_cons_self _ _)),
      ih (fun q hq => hb q (List.mem_cons_of_mem _ hq))]

theorem lcVal_one_var (σ : Store F) (v : Nat) (hv : v ≠ 0) :
    lcVal σ [(v, (1 : F))] = σ.get v := by
  simp [lcVal, valAt, hv]

theorem lcVal_ONE (σ : Store F) : lcVal σ [(0, (1 : F))] = 1 := by
  simp [lcVal, valAt]

theorem lcVal_const (σ : Store F) (c : F) : lcVal σ [(0, c)] = c := by
  simp [lcVal, valAt]

theorem satisfied_agree {n : Nat} {σ σ' : Store F} {cst : Constraint F}
    (hb : cstBound n cst) (h : agree n σ σ') (hs : satisfied σ cst) :
    satisfied σ' cst := by
  unfold satisfied at *
  rw [lcVal_agree h hb.1, lcVal_agree h hb.2.1, lcVal_agree h hb.2.2]
  exact hs

/-! ## Soundness of one round -/

theorem cstBound_mono {n m : Nat} {cst : Constraint F}
    (h : cstBound n cst) (hnm : n ≤ m) : cstBound m cst :=
  ⟨lcBound_mono h.1 hnm, lcBound_mono h.2.1 hnm, lcBound_mono h.2.2 hnm⟩

theorem make_sboxes_snd (n nv : Nat) : (make_sboxes nv n).2 = nv + 3 * n := by
  induction n generalizing nv with
  | zero => simp [make_sboxes]
  | succ n ih =>
    show (make_sboxes (nv + 3) n).2 = nv + 3 * (n + 1)
    rw [ih]; ring

theorem make_sboxes_succ (nv n : Nat) :
    (make_sboxes nv (n + 1)).1 =
      (⟨nv + 1, nv + 2, nv + 3⟩ : Sbox) :: (make_sboxes (nv + 3) n).1 := rfl

theorem make_sboxes_x5_le (n nv : Nat) :
    ∀ s ∈ (make_sboxes nv n).1, s.x5 ≤ nv + 3 * n := by
  induction n generalizing nv with
  | zero => intro s hs; simp [make_sboxes] at hs
  | succ n ih =>
    intro s hs
    rw [make_sboxes_succ] at hs
    rcases List.mem_cons.mp hs with h | h
    · subst h; show nv + 3 ≤ nv + 3 * (n + 1); omega
    · have := ih (nv + 3) s h; omega

theorem sbox_getD_x5_le {b : Nat} {sbs : List Sbox}
    (hsb : ∀ s ∈ sbs, s.x5 ≤ b) (s : Nat) :
    (sbs.getD s ⟨0, 0, 0⟩).x5 ≤ b := by
  by_cases hs : s < sbs.length
  · rw [List.getD_eq_getElem _ _ hs]
    exact hsb _ (List.getElem_mem hs)
  · rw [List.getD_eq_default _ _ (Nat.le_of_not_lt hs)]
    exact Nat.zero_le b

theorem make_outputs_length (t nSBox nIns nOuts : Nat) (Ci : F) (M : Nat → F)
    (state : List (LC F)) (sbs : List Sbox) :
    (make_outputs t nSBox nIns nOuts Ci M state sbs).length = nOuts := by
  simp [make_outputs]

theorem foldl_lcAdd_bound {b : Nat} (f : Nat → LC F) (hf : ∀ k, lcBound b (f k)) :
    ∀ (ks : List Nat) (lc : LC F), lcBound b lc →
      lcBound b (ks.foldl (fun lc k => lcAdd lc (f k)) lc) := by
  intro ks
  induction ks with
  | nil => intro lc h; exact h
  | cons k ks ih =>
    intro lc h
    exact ih _ (lcBound_lcAdd h (hf k))

theorem make_outputs_bound {nv0 b : Nat} (t nSBox nIns nOuts : Nat) (Ci : F)
    (M : Nat → F) {state : List (LC F)} {sbs : List Sbox}
    (hst : ∀ lc ∈ state, lcBound nv0 lc)
    (hsb : ∀ s ∈ sbs, s.x5 ≤ b)
    (h : nv0 ≤ b) :
    ∀ lc ∈ make_outputs t nSBox nIns nOuts Ci M state sbs, lcBound b lc := by
  intro lc hlc
  rcases List.mem_map.mp hlc with ⟨i, _, rfl⟩
  apply foldl_lcAdd_bound
  · intro k
    exact lcBound_lcSmul
      (lcBound_mono (lcBound_getD hst (nSBox + k)) h) _
  · apply lcBound_append
    · intro p hp
      split at hp
      · rcases List.mem_singleton.mp hp with rfl
        exact Nat.zero_le b
      · cases hp
    · intro p hp
      rcases List.mem_map.mp hp with ⟨s, _, rfl⟩
      exact sbox_getD_x5_le hsb s

theorem agree_sboxWitness {nv : Nat} (σ : Store F) {s : Sbox} (v : F)
    (h2 : nv < s.x2) (h4 : nv < s.x4) (h5 : nv < s.x5) :
    agree nv σ (sboxWitness σ s v) := by
  simp only [sboxWitness]
  exact agree_trans (agree_trans (agree_set _ h2) (agree_set _ h4)) (agree_set _ h5)

theorem round_loop_sound (Ci : F) (state : List (LC F)) (nIns nv0 : Nat)
    (hst : ∀ lc ∈ state, lcBound nv0 lc) :
    ∀ (n nv h : Nat) (σ : Store F), nv0 ≤ nv →
      agree nv σ (roundWitnessLoop Ci state nIns (make_sboxes nv n).1 h σ) ∧
      (∀ cst ∈ roundConstraintsLoop Ci state nIns (make_sboxes nv n).1 h,
        cstBound (nv + 3 * n) cst ∧
        satisfied (roundWitnessLoop Ci state nIns (make_sboxes nv n).1 h σ) cst) := by
  intro n
  induction n with
  | zero =>
    intro nv h σ _
    refine ⟨agree_refl _ _, ?_⟩
    intro cst hcst
    simp [make_sboxes, roundConstraintsLoop] at hcst
  | succ n ih =>
    intro nv h σ hnv
    rw [make_sboxes_succ]
    set s₀ : Sbox := ⟨nv + 1, nv + 2, nv + 3⟩ with hs₀
    set x : LC F :=
      if h < nIns then lcAdd (state.getD h []) [(0, Ci)] else [(0, Ci)] with hx
    set value : F :=
      Ci + (if h < nIns then lcVal σ (state.getD h []) else 0) with hvalue
    have hwit :
        roundWitnessLoop Ci state nIns (s₀ :: (make_sboxes (nv + 3) n).1) h σ =
          roundWitnessLoop Ci state nIns (make_sboxes (nv + 3) n).1 (h + 1)
            (sboxWitness σ s₀ value) := rfl
    have hcst :
        roundConstraintsLoop Ci state nIns (s₀ :: (make_sboxes (nv + 3) n).1) h =
          sboxConstraints x s₀ ++
            roundConstraintsLoop Ci state nIns (make_sboxes (nv + 3) n).1 (h + 1) := rfl
    set σ₁ : Store F := sboxWitness σ s₀ value with hσ₁
    have hagree1 : agree nv σ σ₁ :=
      agree_sboxWitness σ value (show nv < nv + 1 by omega)
        (show nv < nv + 2 by omega) (show nv < nv + 3 by omega)
    obtain ⟨ihagree, ihcst⟩ := ih (nv + 3) (h + 1) σ₁ (by omega)
    rw [hwit, hcst]
    have hxb : lcBound nv x := by
      rw [hx]
      split
      · exact lcBound_lcAdd (lcBound_mono (lcBound_getD hst h) hnv)
          (fun p hp => by rcases List.mem_singleton.mp hp with rfl; exact Nat.zero_le nv)
      · exact fun p hp => by rcases List.mem_singleton.mp hp with rfl; exact Nat.zero_le nv
    have hval1 : lcVal σ₁ x = value := by
      rw [lcVal_agree hagree1 hxb, hx, hvalue]
      split
      · rw [lcVal_lcAdd]
        simp [lcVal, valAt]
        ring
      · simp [lcVal, valAt]
    -- values written by the head S-box
    have g2 : σ₁.get (nv + 1) = value * value := by
      rw [hσ₁]; simp only [sboxWitness, hs₀]
      rw [Store.get_set_ne _ _ _ _ (by omega), Store.get_set_ne _ _ _ _ (by omega),
        Store.get_set_self]
    have g4 : σ₁.get (nv + 2) = (value * value) * (value * value) := by
      rw [hσ₁]; simp only [sboxWitness, hs₀]
      rw [Store.get_set_ne _ _ _ _ (by omega), Store.get_set_self]
    have g5 : σ₁.get (nv + 3) = ((value * value) * (value * value)) * value := by
      rw [hσ₁]; simp only [sboxWitness, hs₀]
      rw [Store.get_set_self]
    refine ⟨agree_trans hagree1 (agree_mono ihagree (by omega)), ?_⟩
    intro cst hcstm
    rcases List.mem_append.mp hcstm with hmem | hmem
    · -- a constraint of the head S-box
      have hb3 : cstBound (nv + 3) cst := by
        simp only [sboxConstraints, hs₀, List.mem_cons, List.mem_singleton] at hmem
        have hxb3 : lcBound (nv + 3) x := lcBound_mono hxb (by omega)
        have hone : ∀ (k : Nat), k ≤ nv + 3 →
            lcBound (nv + 3) ([(k, (1 : F))] : LC F) := by
          intro k hk p hp
          rcases List.mem_singleton.mp hp with rfl
          exact hk
        rcases hmem with rfl | rfl | rfl | hf
        · exact ⟨hxb3, hxb3, hone _ (by omega)⟩
        · exact ⟨hone _ (by omega), hone _ (by omega), hone _ (by omega)⟩
        · exact ⟨hxb3, hone _ (by omega), hone _ (by omega)⟩
        · cases hf
      have hsat1 : satisfied σ₁ cst := by
        simp only [sboxConstraints, hs₀, List.mem_cons, List.mem_singleton] at hmem
        rcases hmem with rfl | rfl | rfl | hf
        · show lcVal σ₁ x * lcVal σ₁ x = lcVal σ₁ [(nv + 1, 1)]
          rw [hval1]
          simp [lcVal, valAt, g2]
        · show lcVal σ₁ [(nv + 1, 1)] * lcVal σ₁ [(nv + 1, 1)] =
            lcVal σ₁ [(nv + 2, 1)]
          simp [lcVal, valAt, g2, g4]
        · show lcVal σ₁ x * lcVal σ₁ [(nv + 2, 1)] = lcVal σ₁ [(nv + 3, 1)]
          rw [hval1]
          simp [lcVal, valAt, g4, g5]
          ring
        · cases hf
      refine ⟨cstBound_mono hb3 (by omega), ?_⟩
      exact satisfied_agree hb3 ihagree hsat1
    · -- a constraint of a later S-box of this round
      obtain ⟨hb, hs⟩ := ihcst cst hmem
      exact ⟨cstBound_mono hb (by omega), hs⟩

/-! ## Soundness of round chains and output pinning -/

theorem mkRound_snd (t nSBox nIns nOuts : Nat) (Ci : F) (M : Nat → F)
    (state : List (LC F)) (nv : Nat) :
    (mkRound t nSBox nIns nOuts Ci M state nv).2 = nv + 3 * nSBox :=
  make_sboxes_snd nSBox nv

theorem mkRound_le (t nSBox nIns nOuts : Nat) (Ci : F) (M : Nat → F)
    (state : List (LC F)) (nv : Nat) :
    nv ≤ (mkRound t nSBox nIns nOuts Ci M state nv).2 := by
  rw [mkRound_snd]; omega

theorem mkRound_sound {nv0 : Nat} (t nSBox nIns nOuts : Nat) (Ci : F)
    (M : Nat → F) {state : List (LC F)} (nv : Nat) (σ : Store F)
    (hst : ∀ lc ∈ state, lcBound nv0 lc) (hnv : nv0 ≤ nv) :
    agree nv σ ((mkRound t nSBox nIns nOuts Ci M state nv).1.witness σ) ∧
    (∀ lc ∈ (mkRound t nSBox nIns nOuts Ci M state nv).1.outputs,
      lcBound (mkRound t nSBox nIns nOuts Ci M state nv).2 lc) ∧
    (∀ cst ∈ (mkRound t nSBox nIns nOuts Ci M state nv).1.constraints,
      cstBound (mkRound t nSBox nIns nOuts Ci M state nv).2 cst ∧
      satisfied ((mkRound t nSBox nIns nOuts Ci M state nv).1.witness σ) cst) := by
  obtain ⟨ha, hc⟩ := round_loop_sound Ci state nIns nv0 hst nSBox nv 0 σ hnv
  rw [mkRound_snd]
  refine ⟨ha, ?_, hc⟩
  exact make_outputs_bound t nSBox nIns nOuts Ci M hst
    (fun s hs => make_sboxes_x5_le nSBox nv s hs) (by omega)

theorem chainWitness_nil (σ : Store F) : chainWitness [] σ = σ := rfl

theorem chainWitness_cons (r : Round F) (rs : List (Round F)) (σ : Store F) :
    chainWitness (r :: rs) σ = chainWitness rs (r.witness σ) := rfl

theorem chainWitness_append (a b : List (Round F)) (σ : Store F) :
    chainWitness (a ++ b) σ = chainWitness b (chainWitness a σ) := by
  simp [chainWitness, List.foldl_append]

theorem chainConstraints_cons (r : Round F) (rs : List (Round F)) :
    chainConstraints (r :: rs) = r.constraints ++ chainConstraints rs := by
  simp [chainConstraints]

theorem chainConstraints_append (a b : List (Round F)) :
    chainConstraints (a ++ b) = chainConstraints a ++ chainConstraints b := by
  simp [chainConstraints]

theorem make_rounds_go_sound (t nSBox nIns nOuts : Nat) (C M : Nat → F) :
    ∀ (k i : Nat) (state : List (LC F)) (nv : Nat) (σ : Store F),
      (∀ lc ∈ state, lcBound nv lc) →
      nv ≤ (make_rounds_go t nSBox nIns nOuts C M k i state nv).2.2 ∧
      (∀ lc ∈ (make_rounds_go t nSBox nIns nOuts C M k i state nv).2.1,
        lcBound (make_rounds_go t nSBox nIns nOuts C M k i state nv).2.2 lc) ∧
      agree nv σ
        (chainWitness (make_rounds_go t nSBox nIns nOuts C M k i state nv).1 σ) ∧
      (∀ cst ∈ chainConstraints (make_rounds_go t nSBox nIns nOuts C M k i state nv).1,
        cstBound (make_rounds_go t nSBox nIns nOuts C M k i state nv).2.2 cst ∧
        satisfied
          (chainWitness (make_rounds_go t nSBox nIns nOuts C M k i state nv).1 σ)
          cst) := by
  intro k
  induction k with
  | zero =>
    intro i state nv σ hst
    refine ⟨le_refl _, hst, agree_refl _ _, ?_⟩
    intro cst hcst
    simp [make_rounds_go, chainConstraints] at hcst
  | succ k ih =>
    intro i state nv σ hst
    obtain ⟨har, hob, hcr⟩ :=
      mkRound_sound t nSBox nIns nOuts (C i) M nv σ hst (le_refl nv)
    obtain ⟨hle, hfin, hac, hcc⟩ :=
      ih (i + 1) (mkRound t nSBox nIns nOuts (C i) M state nv).1.outputs
        (mkRound t nSBox nIns nOuts (C i) M state nv).2
        ((mkRound t nSBox nIns nOuts (C i) M state nv).1.witness σ) hob
    have hnv' := mkRound_le t nSBox nIns nOuts (C i) M state nv
    have hsplit : (make_rounds_go t nSBox nIns nOuts C M (k + 1) i state nv).1 =
        (mkRound t nSBox nIns nOuts (C i) M state nv).1 ::
          (make_rounds_go t nSBox nIns nOuts C M k (i + 1)
            (mkRound t nSBox nIns nOuts (C i) M state nv).1.outputs
            (mkRound t nSBox nIns nOuts (C i) M state nv).2).1 := rfl
    have h22 : (make_rounds_go t nSBox nIns nOuts C M (k + 1) i state nv).2.2 =
        (make_rounds_go t nSBox nIns nOuts C M k (i + 1)
          (mkRound t nSBox nIns nOuts (C i) M state nv).1.outputs
          (mkRound t nSBox nIns nOuts (C i) M state nv).2).2.2 := rfl
    have h21 : (make_rounds_go t nSBox nIns nOuts C M (k + 1) i state nv).2.1 =
        (make_rounds_go t nSBox nIns nOuts C M k (i + 1)
          (mkRound t nSBox nIns nOuts (C i) M state nv).1.outputs
          (mkRound t nSBox nIns nOuts (C i) M state nv).2).2.1 := rfl
    rw [hsplit, h22, h21, chainWitness_cons, chainConstraints_cons]
    refine ⟨le_trans hnv' hle, hfin, ?_, ?_⟩
    · exact agree_trans har (agree_mono hac hnv')
    · intro cst hcst
      rcases List.mem_append.mp hcst with hmem | hmem
      · obtain ⟨hb, hs⟩ := hcr cst hmem
        refine ⟨cstBound_mono hb hle, ?_⟩
        exact satisfied_agree hb hac hs
      · obtain ⟨hb, hs⟩ := hcc cst hmem
        exact ⟨hb, hs⟩

theorem pin_get_ne (v : Nat) :
    ∀ (os : List (LC F)) (vs : List Nat) (σ : Store F), (∀ u ∈ vs, u ≠ v) →
      ((os.zip vs).foldl (fun σ p => σ.set p.2 (lcVal σ p.1)) σ).get v = σ.get v := by
  intro os
  induction os with
  | nil => intro vs σ _; rfl
  | cons o os ih =>
    intro vs σ hvs
    cases vs with
    | nil => rfl
    | cons u vs =>
      rw [List.zip_cons_cons, List.foldl_cons,
        ih vs _ (fun w hw => hvs w (List.mem_cons_of_mem _ hw))]
      exact Store.get_set_ne σ u v _ (hvs u (List.mem_cons_self _ _)).symm

theorem pin_sound {nvb b : Nat} (hnb : nvb ≤ b) :
    ∀ (outs : List (LC F)) (vs : List Nat) (σ : Store F),
      (∀ lc ∈ outs, lcBound nvb lc) →
      (∀ v ∈ vs, b < v) →
      vs.Pairwise (· ≠ ·) →
      agree b σ ((outs.zip vs).foldl (fun σ p => σ.set p.2 (lcVal σ p.1)) σ) ∧
      (∀ p ∈ outs.zip vs,
        satisfied ((outs.zip vs).foldl (fun σ p => σ.set p.2 (lcVal σ p.1)) σ)
          (⟨p.1, [(0, 1)], [(p.2, 1)]⟩ : Constraint F)) := by
  intro outs
  induction outs with
  | nil =>
    intro vs σ _ _ _
    refine ⟨agree_refl _ _, ?_⟩
    intro p hp; simp at hp
  | cons o os ih =>
    intro vs σ hb hgt hpw
    cases vs with
    | nil =>
      refine ⟨agree_refl _ _, ?_⟩
      intro p hp; simp at hp
    | cons v vs =>
      rw [List.zip_cons_cons, List.foldl_cons]
      have hbv : b < v := hgt v (List.mem_cons_self _ _)
      have hosb : ∀ lc ∈ os, lcBound nvb lc :=
        fun lc hlc => hb lc (List.mem_cons_of_mem _ hlc)
      have hgt' : ∀ u ∈ vs, b < u := fun u hu => hgt u (List.mem_cons_of_mem _ hu)
      have hpw' : vs.Pairwise (· ≠ ·) := (List.pairwise_cons.mp hpw).2
      have hvne : ∀ u ∈ vs, u ≠ v :=
        fun u hu => ((List.pairwise_cons.mp hpw).1 u hu).symm
      obtain ⟨hag, hsat⟩ :=
        ih vs (σ.set v (lcVal σ o)) hosb hgt' hpw'
      have hagσ : agree b σ
          ((os.zip vs).foldl (fun σ p => σ.set p.2 (lcVal σ p.1))
            (σ.set v (lcVal σ o))) :=
        agree_trans (agree_set _ hbv) hag
      refine ⟨hagσ, ?_⟩
      intro p hp
      rcases List.mem_cons.mp hp with hpeq | hmem
      · subst hpeq
        show lcVal _ o * lcVal _ [(0, 1)] = lcVal _ [(v, 1)]
        have hov : lcVal ((os.zip vs).foldl (fun σ p => σ.set p.2 (lcVal σ p.1))
            (σ.set v (lcVal σ o))) o = lcVal σ o :=
          lcVal_agree (agree_mono hagσ hnb) (hb o (List.mem_cons_self _ _))
        have hgetv : ((os.zip vs).foldl (fun σ p => σ.set p.2 (lcVal σ p.1))
            (σ.set v (lcVal σ o))).get v = lcVal σ o := by
          rw [pin_get_ne v os vs _ hvne, Store.get_set_self]
        rw [hov, lcVal_ONE, lcVal_one_var _ v (by omega), hgetv, mul_one]
      · exact hsat p hmem

theorem chainConstraints_nil : chainConstraints ([] : List (Round F)) = [] := rfl

/-- Witness soundness of the fully assembled master gadget, for an
arbitrary initial witness table (in particular for arbitrary values of
the input variables `1..nIn`). -/
theorem mkMaster_sound (t c Fp P nIn nOut : Nat) (co : Bool)
    (C M : Nat → F) (σ : Store F) :
    ∀ cst ∈ (mkMaster t c Fp P nIn nOut co C M).constraints,
      satisfied ((mkMaster t c Fp P nIn nOut co C M).witness σ) cst := by
  intro cst hcst
  set inputs : List (LC F) := (List.range nIn).map (fun k => [(k + 1, 1)]) with hinputs
  set fr := mkRound t t nIn t (C 0) M inputs nIn with hfr
  set pre := make_rounds_go t t t t C M (partial_begin Fp - 1) 1 fr.1.outputs fr.2
    with hpre
  set par := make_rounds_go t c t t C M P (partial_begin Fp) pre.2.1 pre.2.2
    with hpar
  set suf := make_rounds_go t t t t C M (total_rounds Fp P - 1 - partial_end Fp P)
    (partial_end Fp P) par.2.1 par.2.2 with hsuf
  set lr := mkRound t t t nOut (C (total_rounds Fp P - 1)) M suf.2.1 suf.2.2
    with hlr
  set outv := (if co then (List.range nOut).map (fun k => lr.2 + 1 + k) else [])
    with houtv
  have hm : mkMaster t c Fp P nIn nOut co C M =
      ⟨fr.1, pre.1, par.1, suf.1, lr.1, outv,
        lr.2 + (if co then nOut else 0)⟩ := rfl
  rw [hm] at hcst ⊢
  have hcs : (⟨fr.1, pre.1, par.1, suf.1, lr.1, outv,
        lr.2 + (if co then nOut else 0)⟩ : Master F).constraints =
      chainConstraints (fr.1 :: (pre.1 ++ par.1 ++ suf.1 ++ [lr.1])) ++
        (lr.1.outputs.zip outv).map
          (fun p => (⟨p.1, [(0, 1)], [(p.2, 1)]⟩ : Constraint F)) := rfl
  have hws : (⟨fr.1, pre.1, par.1, suf.1, lr.1, outv,
        lr.2 + (if co then nOut else 0)⟩ : Master F).witness σ =
      (lr.1.outputs.zip outv).foldl (fun σ p => σ.set p.2 (lcVal σ p.1))
        (chainWitness (fr.1 :: (pre.1 ++ par.1 ++ suf.1 ++ [lr.1])) σ) := rfl
  have hcw : chainWitness (fr.1 :: (pre.1 ++ par.1 ++ suf.1 ++ [lr.1])) σ =
      lr.1.witness
        (chainWitness suf.1 (chainWitness par.1 (chainWitness pre.1 (fr.1.witness σ)))) := by
    rw [chainWitness_cons, chainWitness_append, chainWitness_append, chainWitness_append]
    rfl
  rw [hcs] at hcst
  rw [hws, hcw]
  -- the five witness stages
  set σ1 := fr.1.witness σ with hσ1
  set σ2 := chainWitness pre.1 σ1 with hσ2
  set σ3 := chainWitness par.1 σ2 with hσ3
  set σ4 := chainWitness suf.1 σ3 with hσ4
  set σ5 := lr.1.witness σ4 with hσ5
  set σf := (lr.1.outputs.zip outv).foldl (fun σ p => σ.set p.2 (lcVal σ p.1)) σ5
    with hσf
  -- per-stage soundness
  have hinb : ∀ lc ∈ inputs, lcBound nIn lc := by
    intro lc hlc
    rcases List.mem_map.mp hlc with ⟨k, hk, rfl⟩
    intro p hp
    rcases List.mem_singleton.mp hp with rfl
    exact List.mem_range.mp hk
  obtain ⟨ag1, ob1, cs1⟩ := mkRound_sound t t nIn t (C 0) M nIn σ hinb (le_refl nIn)
  obtain ⟨le2, ob2, ag2, cs2⟩ :=
    make_rounds_go_sound t t t t C M (partial_begin Fp - 1) 1 fr.1.outputs fr.2 σ1 ob1
  obtain ⟨le3, ob3, ag3, cs3⟩ :=
    make_rounds_go_sound t c t t C M P (partial_begin Fp) pre.2.1 pre.2.2 σ2 ob2
  obtain ⟨le4, ob4, ag4, cs4⟩ :=
    make_rounds_go_sound t t t t C M (total_rounds Fp P - 1 - partial_end Fp P)
      (partial_end Fp P) par.2.1 par.2.2 σ3 ob3
  obtain ⟨ag5, ob5, cs5⟩ :=
    mkRound_sound t t t nOut (C (total_rounds Fp P - 1)) M suf.2.2 σ4 ob4
      (le_refl suf.2.2)
  have le5 : suf.2.2 ≤ lr.2 := mkRound_le t t t nOut (C (total_rounds Fp P - 1)) M suf.2.1 suf.2.2
  -- output pinning
  have hovgt : ∀ v ∈ outv, lr.2 < v := by
    intro v hv
    rw [houtv] at hv
    split at hv
    · rcases List.mem_map.mp hv with ⟨k, _, rfl⟩
      omega
    · cases hv
  have hovpw : outv.Pairwise (· ≠ ·) := by
    rw [houtv]
    split
    · refine List.Pairwise.map _ ?_ (List.pairwise_lt_range nOut)
      intro a b hab
      omega
    · exact List.Pairwise.nil
  obtain ⟨agp, csp⟩ :=
    pin_sound (le_refl lr.2) lr.1.outputs outv σ5 ob5 hovgt hovpw
  -- composed agreement from each stage to the final table
  have g5 : agree lr.2 σ5 σf := agp
  have g4 : agree suf.2.2 σ4 σf := agree_trans ag5 (agree_mono g5 le5)
  have g3 : agree par.2.2 σ3 σf := agree_trans ag4 (agree_mono g4 le4)
  have g2 : agree pre.2.2 σ2 σf := agree_trans ag3 (agree_mono g3 le3)
  have g1 : agree fr.2 σ1 σf := agree_trans ag2 (agree_mono g2 le2)
  -- case analysis on where the constraint came from
  simp only [chainConstraints_cons, chainConstraints_append, chainConstraints_nil,
    List.append_nil, List.append_assoc, List.mem_append] at hcst
  rcases hcst with h | h | h | h | h | h
  · obtain ⟨hb, hs⟩ := cs1 cst h
    exact satisfied_agree hb g1 hs
  · obtain ⟨hb, hs⟩ := cs2 cst h
    exact satisfied_agree hb g2 hs
  · obtain ⟨hb, hs⟩ := cs3 cst h
    exact satisfied_agree hb g3 hs
  · obtain ⟨hb, hs⟩ := cs4 cst h
    exact satisfied_agree hb g4 hs
  · obtain ⟨hb, hs⟩ := cs5 cst h
    exact satisfied_agree hb g5 hs
  · rcases List.mem_map.mp h with ⟨p, hp, rfl⟩
    exact csp p hp

/-! ## Counting constraints and rounds -/

theorem make_sboxes_length (n nv : Nat) : (make_sboxes nv n).1.length = n := by
  induction n generalizing nv with
  | zero => rfl
  | succ n ih =>
    rw [make_sboxes_succ, List.length_cons, ih]

theorem roundConstraintsLoop_length (Ci : F) (state : List (LC F)) (nIns : Nat) :
    ∀ (sbs : List Sbox) (h : Nat),
      (roundConstraintsLoop Ci state nIns sbs h).length = 3 * sbs.length := by
  intro sbs
  induction sbs with
  | nil => intro h; rfl
  | cons s rest ih =>
    intro h
    show (sboxConstraints _ s ++ roundConstraintsLoop Ci state nIns rest (h + 1)).length
      = 3 * (rest.length + 1)
    rw [List.length_append, ih]
    show 3 + 3 * rest.length = 3 * (rest.length + 1)
    ring

theorem mkRound_constraints_length (t nSBox nIns nOuts : Nat) (Ci : F)
    (M : Nat → F) (state : List (LC F)) (nv : Nat) :
    (mkRound t nSBox nIns nOuts Ci M state nv).1.constraints.length = 3 * nSBox := by
  show (roundConstraintsLoop Ci state nIns (make_sboxes nv nSBox).1 0).length = 3 * nSBox
  rw [roundConstraintsLoop_length, make_sboxes_length]

theorem mkRound_outputs_length (t nSBox nIns nOuts : Nat) (Ci : F)
    (M : Nat → F) (state : List (LC F)) (nv : Nat) :
    (mkRound t nSBox nIns nOuts Ci M state nv).1.outputs.length = nOuts :=
  make_outputs_length t nSBox nIns nOuts Ci M state (make_sboxes nv nSBox).1

theorem make_rounds_go_length (t nSBox nIns nOuts : Nat) (C M : Nat → F) :
    ∀ (k i : Nat) (state : List (LC F)) (nv : Nat),
      (make_rounds_go t nSBox nIns nOuts C M k i state nv).1.length = k := by
  intro k
  induction k with
  | zero => intro i state nv; rfl
  | succ k ih =>
    intro i state nv
    show ((mkRound t nSBox nIns nOuts (C i) M state nv).1 ::
      (make_rounds_go t nSBox nIns nOuts C M k (i + 1) _ _).1).length = k + 1
    rw [List.length_cons, ih]

theorem make_rounds_go_constraints_length (t nSBox nIns nOuts : Nat) (C M : Nat → F) :
    ∀ (k i : Nat) (state : List (LC F)) (nv : Nat),
      (chainConstraints (make_rounds_go t nSBox nIns nOuts C M k i state nv).1).length
        = 3 * nSBox * k := by
  intro k
  induction k with
  | zero => intro i state nv; rfl
  | succ k ih =>
    intro i state nv
    rw [show (make_rounds_go t nSBox nIns nOuts C M (k + 1) i state nv).1 =
      (mkRound t nSBox nIns nOuts (C i) M state nv).1 ::
        (make_rounds_go t nSBox nIns nOuts C M k (i + 1)
          (mkRound t nSBox nIns nOuts (C i) M state nv).1.outputs
          (mkRound t nSBox nIns nOuts (C i) M state nv).2).1 from rfl,
      chainConstraints_cons, List.length_append, ih, mkRound_constraints_length]
    ring

/-- The constraint count of the assembled master, as a function of the
segment lengths; no arithmetic on `F/2` yet. -/
theorem mkMaster_constraints_length_raw (t c Fp P nIn nOut : Nat)
    (C M : Nat → F) :
    (mkMaster t c Fp P nIn nOut true C M).constraints.length =
      3 * t + 3 * t * (partial_begin Fp - 1) + 3 * c * P +
        3 * t * (total_rounds Fp P - 1 - partial_end Fp P) + 3 * t + nOut := by
  set inputs : List (LC F) := (List.range nIn).map (fun k => [(k + 1, 1)]) with hinputs
  set fr := mkRound t t nIn t (C 0) M inputs nIn with hfr
  set pre := make_rounds_go t t t t C M (partial_begin Fp - 1) 1 fr.1.outputs fr.2
    with hpre
  set par := make_rounds_go t c t t C M P (partial_begin Fp) pre.2.1 pre.2.2
    with hpar
  set suf := make_rounds_go t t t t C M (total_rounds Fp P - 1 - partial_end Fp P)
    (partial_end Fp P) par.2.1 par.2.2 with hsuf
  set lr := mkRound t t t nOut (C (total_rounds Fp P - 1)) M suf.2.1 suf.2.2
    with hlr
  have hm : (mkMaster t c Fp P nIn nOut true C M).constraints =
      chainConstraints (fr.1 :: (pre.1 ++ par.1 ++ suf.1 ++ [lr.1])) ++
        (lr.1.outputs.zip ((List.range nOut).map (fun k => lr.2 + 1 + k))).map
          (fun p => (⟨p.1, [(0, 1)], [(p.2, 1)]⟩ : Constraint F)) := rfl
  rw [hm, List.length_append, chainConstraints_cons, chainConstraints_append,
    chainConstraints_append, chainConstraints_append, chainConstraints_cons,
    chainConstraints_nil]
  simp only [List.length_append, List.length_map, List.length_zip,
    List.length_range, List.append_nil]
  rw [hfr, mkRound_constraints_length, mkRound_constraints_length,
    mkRound_outputs_length, hpre, make_rounds_go_constraints_length,
    make_rounds_go_constraints_length, make_rounds_go_constraints_length]
  simp only [Nat.min_self]
  ring

/-! ## The round output formula -/

theorem lcVal_foldl_lcAdd (σ : Store F) (f : Nat → LC F) :
    ∀ (ks : List Nat) (lc : LC F),
      lcVal σ (ks.foldl (fun lc k => lcAdd lc (f k)) lc)
        = lcVal σ lc + (ks.map (fun k => lcVal σ (f k))).sum := by
  intro ks
  induction ks with
  | nil => intro lc; simp
  | cons k ks ih =>
    intro lc
    rw [List.foldl_cons, ih, lcVal_lcAdd, List.map_cons, List.sum_cons]
    ring

theorem lcVal_map_pairs (σ : Store F) (l : List Nat) (v : Nat → Nat) (c : Nat → F) :
    lcVal σ (l.map (fun s => (v s, c s)))
      = (l.map (fun s => c s * valAt σ (v s))).sum := by
  unfold lcVal
  rw [List.map_map]
  rfl

theorem lcAdd_head_zero {lc ys : LC F} {a : F} (h : lc.head? = some (0, a)) :
    ∃ b, (lcAdd lc ys).head? = some (0, b) := by
  cases lc with
  | nil => simp at h
  | cons p lc =>
    obtain rfl : p = (0, a) := by simpa using h
    cases ys with
    | nil => exact ⟨a, rfl⟩
    | cons q ys =>
      obtain ⟨j, c⟩ := q
      rw [lcAdd_cons_cons]
      by_cases hj : 0 < j
      · rw [if_pos hj]
        exact ⟨a, rfl⟩
      · rw [if_neg hj, if_neg (by omega)]
        exact ⟨a + c, rfl⟩

theorem foldl_lcAdd_head_zero (f : Nat → LC F) :
    ∀ (ks : List Nat) (lc : LC F), (∃ a, lc.head? = some (0, a)) →
      ∃ b, (ks.foldl (fun lc k => lcAdd lc (f k)) lc).head? = some (0, b) := by
  intro ks
  induction ks with
  | nil => intro lc h; exact h
  | cons k ks ih =>
    intro lc ⟨a, ha⟩
    exact ih _ (lcAdd_head_zero ha)

/-- C3: for every round gadget with parameters `(t, nSBox, nInputs,
nOutputs)` and every output index `i < nOutputs`, the output linear
combination evaluates (under any witness table) to
`Σ_{s<nSBox} M[i·t+s]·sbox[s].result() +
 Σ_{k∈[nSBox,nInputs)} M[i·t+k]·state[k] + const_term`, where
`const_term = Σ_{j∈[nSBox,t)} c_i·M[i·t+j]` is present only when
`nSBox < t`, and in that case it sits as a single leading term on
variable 0. -/
theorem C3_round_output_formula (t nSBox nIns nOuts : Nat) (Ci : F)
    (M : Nat → F) (state : List (LC F)) (sbs : List Sbox) (σ : Store F)
    (i : Nat) (hi : i < nOuts) :
    lcVal σ ((make_outputs t nSBox nIns nOuts Ci M state sbs).getD i [])
      = ((List.range nSBox).map
          (fun s => M (i * t + s) * valAt σ (sbs.getD s ⟨0, 0, 0⟩).x5)).sum
        + ((List.range (nIns - nSBox)).map
            (fun k => M (i * t + nSBox + k) * lcVal σ (state.getD (nSBox + k) []))).sum
        + (if nSBox < t
            then ((List.range (t - nSBox)).map (fun j => Ci * M (i * t + nSBox + j))).sum
            else 0) ∧
    (nSBox < t →
      ∃ a, ((make_outputs t nSBox nIns nOuts Ci M state sbs).getD i []).head?
        = some (0, a)) := by
  have hlen : i < (make_outputs t nSBox nIns nOuts Ci M state sbs).length := by
    rw [make_outputs_length]; exact hi
  have hout : (make_outputs t nSBox nIns nOuts Ci M state sbs).getD i []
      = (List.range (nIns - nSBox)).foldl
          (fun lc k => lcAdd lc
            (lcSmul (state.getD (nSBox + k) []) (M (i * t + nSBox + k))))
          ((if nSBox < t
              then [(0, ((List.range (t - nSBox)).map
                      (fun j => Ci * M (i * t + nSBox + j))).sum)]
              else []) ++
            (List.range nSBox).map
              (fun s => ((sbs.getD s ⟨0, 0, 0⟩).x5, M (i * t + s)))) := by
    rw [List.getD_eq_getElem _ _ hlen]
    unfold make_outputs
    rw [List.getElem_map, List.getElem_range]
  constructor
  · rw [hout, lcVal_foldl_lcAdd, lcVal_append, lcVal_map_pairs]
    have hsm : ∀ k : Nat,
        lcVal σ (lcSmul (state.getD (nSBox + k) []) (M (i * t + nSBox + k)))
          = M (i * t + nSBox + k) * lcVal σ (state.getD (nSBox + k) []) := by
      intro k; rw [lcVal_lcSmul]; ring
    rw [List.map_congr_left (fun k _ => hsm k)]
    have hterms : ((List.range nSBox).map
        (fun s => M (i * t + s) * valAt σ (sbs.getD s ⟨0, 0, 0⟩).x5)).sum
        = ((List.range nSBox).map
            (fun s => valAt σ (sbs.getD s ⟨0, 0, 0⟩).x5 * M (i * t + s))).sum := by
      rw [List.map_congr_left (fun s _ => mul_comm _ _)]
    rw [hterms]
    split
    · rw [lcVal_const]
      ring
    · rw [lcVal_nil]
      ring
  · intro hlt
    rw [hout]
    apply foldl_lcAdd_head_zero
    refine ⟨((List.range (t - nSBox)).map
      (fun j => Ci * M (i * t + nSBox + j))).sum, ?_⟩
    rw [if_pos hlt]
    rfl

/-! ## The constant generator stream -/

/-- The digest stream as the spec words it: the first digest hashes the
seed, and each later digest hashes the previous raw output buffer. -/
def specStream (blake : Nat → List Nat → List Nat) (L : Nat) (seed : List Nat) :
    Nat → List Nat
  | 0 => blake L seed
  | i + 1 => blake L (specStream blake L seed i)

theorem pcf_loop_length (blake : Nat → List Nat → List Nat) (L : Nat) :
    ∀ (k : Nat) (prev : List Nat), (pcf_loop blake L k prev).length = k := by
  intro k
  induction k with
  | zero => intro prev; rfl
  | succ k ih =>
    intro prev
    show (blake L prev :: pcf_loop blake L k (blake L prev)).length = k + 1
    rw [List.length_cons, ih]

theorem pcf_loop_getD (blake : Nat → List Nat → List Nat) (L : Nat)
    (seed : List Nat) :
    ∀ (k i j : Nat), j < k →
      (pcf_loop blake L k (specStream blake L seed i)).getD j []
        = specStream blake L seed (i + 1 + j) := by
  intro k
  induction k with
  | zero => intro i j hj; omega
  | succ k ih =>
    intro i j hj
    have hstep : pcf_loop blake L (k + 1) (specStream blake L seed i)
        = specStream blake L seed (i + 1) ::
            pcf_loop blake L k (specStream blake L seed (i + 1)) := rfl
    rw [hstep]
    cases j with
    | zero => rw [List.getD_cons_zero]
    | succ j =>
      rw [List.getD_cons_succ, ih (i + 1) j (by omega),
        show i + 1 + 1 + j = i + 1 + (j + 1) by omega]

theorem poseidon_constants_fill_length (p sizeInBits : Nat)
    (blake : Nat → List Nat → List Nat) (seed : List Nat) (n : Nat)
    (hn : 1 ≤ n) :
    (poseidon_constants_fill p sizeInBits blake seed n).length = n := by
  unfold poseidon_constants_fill
  rw [List.length_map, List.length_cons, pcf_loop_length]
  omega

/-- C4: the constant generator consumes
`L = (bitlen + (8 − bitlen mod 8)) / 8` bytes per element (a full extra
byte when the bit length is a multiple of 8), produces `n` elements, the
first decoding `BLAKE2b(out=L, data=seed)` little-endian mod `p`, and
each later element decoding the re-hash of the previous raw digest. -/
theorem C4_constants_generator (p sizeInBits : Nat)
    (blake : Nat → List Nat → List Nat) (seed : List Nat) (n : Nat)
    (hn : 1 ≤ n) :
    (poseidon_constants_fill p sizeInBits blake seed n).length = n ∧
    (∀ i, i < n →
      (poseidon_constants_fill p sizeInBits blake seed n).getD i 0
        = bytes_to_FieldT_littleendian p
            (specStream blake (output_size sizeInBits) seed i)) ∧
    (sizeInBits % 8 = 0 → output_size sizeInBits = sizeInBits / 8 + 1) := by
  refine ⟨poseidon_constants_fill_length p sizeInBits blake seed n hn, ?_, ?_⟩
  · intro i hi
    have hlen : i < (poseidon_constants_fill p sizeInBits blake seed n).length := by
      rw [poseidon_constants_fill_length p sizeInBits blake seed n hn]
      exact hi
    rw [List.getD_eq_getElem _ _ hlen]
    unfold poseidon_constants_fill
    rw [List.getElem_map]
    congr 1
    cases i with
    | zero => rfl
    | succ i =>
      rw [List.getElem_cons_succ]
      have hplen : i < (pcf_loop blake (output_size sizeInBits) (n - 1)
          (blake (output_size sizeInBits) seed)).length := by
        rw [pcf_loop_length]; omega
      rw [← List.getD_eq_getElem _ [] hplen,
        show blake (output_size sizeInBits) seed
          = specStream blake (output_size sizeInBits) seed 0 from rfl,
        pcf_loop_getD blake (output_size sizeInBits) seed (n - 1) 0 i (by omega),
        show 0 + 1 + i = i + 1 by omega]
  · intro h8
    unfold output_size n_bits_roundedup
    omega

/-! ## The matrix generator -/

theorem flatten_rows_getD {α : Type} (d : α) (t : Nat) :
    ∀ (rows : List (List α)) (i j : Nat), (∀ r ∈ rows, r.length = t) →
      i < rows.length → j < t →
      rows.flatten.getD (i * t + j) d = (rows.getD i []).getD j d := by
  intro rows
  induction rows with
  | nil => intro i j _ hi _; simp at hi
  | cons r rows ih =>
    intro i j hlen hi hj
    have hr : r.length = t := hlen r (List.mem_cons_self _ _)
    rw [List.flatten_cons]
    cases i with
    | zero =>
      rw [List.getD_cons_zero, List.getD_append _ _ _ _ (by omega)]
      simp
    | succ i =>
      rw [List.getD_cons_succ,
        List.getD_append_right _ _ _ _ (by rw [hr, Nat.succ_mul]; omega),
        show (i + 1) * t + j - r.length = i * t + j by rw [hr, Nat.succ_mul]; omega]
      exact ih i j (fun q hq => hlen q (List.mem_cons_of_mem _ hq))
        (by simpa using hi) hj

theorem poseidon_matrix_fill_rows_getD (p sizeInBits : Nat)
    (blake : Nat → List Nat → List Nat) (seed : List Nat) (t i j : Nat)
    (hi : i < t) (hj : j < t) :
    (poseidon_matrix_fill p sizeInBits blake seed t).getD (i * t + j) 0
      = ((poseidon_constants_fill p sizeInBits blake seed (t * 2)).getD i 0
          - (poseidon_constants_fill p sizeInBits blake seed (t * 2)).getD (t + j) 0)⁻¹ := by
  set cl := poseidon_constants_fill p sizeInBits blake seed (t * 2) with hcl
  show ((List.range t).map (fun i => (List.range t).map
      (fun j => (cl.getD i 0 - cl.getD (t + j) 0)⁻¹))).flatten.getD (i * t + j) 0
    = (cl.getD i 0 - cl.getD (t + j) 0)⁻¹
  rw [flatten_rows_getD 0 t _ i j ?hlen (by simpa using hi) hj]
  case hlen =>
    intro r hr
    rcases List.mem_map.mp hr with ⟨k, _, rfl⟩
    simp
  have hrow : ((List.range t).map (fun i => (List.range t).map
      (fun j => (cl.getD i 0 - cl.getD (t + j) 0)⁻¹))).getD i []
      = (List.range t).map (fun j => (cl.getD i 0 - cl.getD (t + j) 0)⁻¹) := by
    rw [List.getD_eq_getElem _ _ (by simpa using hi), List.getElem_map,
      List.getElem_range]
  rw [hrow,
    List.getD_eq_getElem ((List.range t).map
      (fun j => (cl.getD i 0 - cl.getD (t + j) 0)⁻¹)) 0 (by simpa using hj),
    List.getElem_map, List.getElem_range]

/-- C5: the matrix generator derives `2t` elements from the seed
`"poseidon_matrix_0000"` and produces a row-major `t·t` matrix with
`M[i·t+j] = (c[i] − c[t+j])⁻¹`; the round-constant vector `C` of
`poseidon_params` has length exactly `F + P`. -/
theorem C5_matrix_and_params (p sizeInBits : Nat)
    (blake : Nat → List Nat → List Nat) (t Fp P : Nat)
    (hFP : 1 ≤ Fp + P) :
    (poseidon_params p sizeInBits blake t Fp P).M.length = t * t ∧
    (∀ i j, i < t → j < t →
      (poseidon_params p sizeInBits blake t Fp P).M.getD (i * t + j) 0
        = ((poseidon_constants_fill p sizeInBits blake
              (strBytes "poseidon_matrix_0000") (t * 2)).getD i 0
            - (poseidon_constants_fill p sizeInBits blake
              (strBytes "poseidon_matrix_0000") (t * 2)).getD (t + j) 0)⁻¹) ∧
    (poseidon_params p sizeInBits blake t Fp P).C.length = Fp + P := by
  refine ⟨?_, ?_, ?_⟩
  · show (poseidon_matrix_fill p sizeInBits blake
      (strBytes "poseidon_matrix_0000") t).length = t * t
    unfold poseidon_matrix_fill
    rw [List.length_flatten, List.map_map]
    have hm : (List.range t).map
        (List.length ∘ fun i => (List.range t).map
          (fun j => ((poseidon_constants_fill p sizeInBits blake
            (strBytes "poseidon_matrix_0000") (t * 2)).getD i 0
            - (poseidon_constants_fill p sizeInBits blake
              (strBytes "poseidon_matrix_0000") (t * 2)).getD (t + j) 0)⁻¹))
        = (List.range t).map (fun _ => t) := by
      apply List.map_congr_left
      intro a _
      simp
    rw [hm, List.map_const' (List.range t) t, List.length_range,
      List.sum_replicate, smul_eq_mul]
  · intro i j hi hj
    exact poseidon_matrix_fill_rows_getD p sizeInBits blake _ t i j hi hj
  · exact poseidon_constants_fill_length p sizeInBits blake _ (Fp + P) hFP

theorem make_rounds_go_shape (t nSBox nIns nOuts : Nat) (C M : Nat → F) :
    ∀ (k i : Nat) (state : List (LC F)) (nv : Nat),
      ∀ r ∈ (make_rounds_go t nSBox nIns nOuts C M k i state nv).1,
        r.nInputs = nIns ∧ r.outputs.length = nOuts := by
  intro k
  induction k with
  | zero => intro i state nv r hr; cases hr
  | succ k ih =>
    intro i state nv r hr
    rw [show (make_rounds_go t nSBox nIns nOuts C M (k + 1) i state nv).1 =
      (mkRound t nSBox nIns nOuts (C i) M state nv).1 ::
        (make_rounds_go t nSBox nIns nOuts C M k (i + 1)
          (mkRound t nSBox nIns nOuts (C i) M state nv).1.outputs
          (mkRound t nSBox nIns nOuts (C i) M state nv).2).1 from rfl] at hr
    rcases List.mem_cons.mp hr with h | h
    · subst h
      exact ⟨rfl, mkRound_outputs_length t nSBox nIns nOuts (C i) M state nv⟩
    · exact ih (i + 1) _ _ r h

/-! ## The claims -/

/-- C1: for every field input vector of length `nInputs`, after the
master gadget's `generate_r1cs_witness` runs (with the input variables
`1..nInputs` assigned those values), every constraint `(A, B, C)` emitted
by its `generate_r1cs_constraints` satisfies
`eval(A) · eval(B) = eval(C)` under the produced witness assignment. -/
theorem C1_master_witness_soundness (t c Fp P nIn nOut : Nat) (co : Bool)
    (C M : Nat → F) (xs : List F) (hlen : xs.length = nIn) :
    ∀ cst ∈ (mkMaster t c Fp P nIn nOut co C M).constraints,
      satisfied
        ((mkMaster t c Fp P nIn nOut co C M).witness
          ((List.range nIn).map (fun i => (i + 1, xs.getD i 0))))
        cst :=
  fun cst hcst => mkMaster_sound t c Fp P nIn nOut co C M _ cst hcst

/-- Witness for C1 at a concrete instance: the first emitted constraint
of a small master is satisfied by the generated witness. -/
theorem C1_witness :
    satisfied
      ((mkMaster 1 1 4 1 1 1 true (fun _ => (1 : Int)) (fun _ => 1)).witness
        ((List.range 1).map (fun i => (i + 1, [(2 : Int)].getD i 0))))
      ((mkMaster 1 1 4 1 1 1 true (fun _ => (1 : Int)) (fun _ => 1)).constraints.getD 0
        ⟨[], [], []⟩) := by
  have h := C1_master_witness_soundness 1 1 4 1 1 1 true
    (fun _ => (1 : Int)) (fun _ => 1) [2] rfl
  exact h _ (by decide)

/-- C2: the total number of R1CS constraints emitted by the master with
`constrain_outputs = true` equals `3·(t·F + c·P) + nOutputs`. -/
theorem C2_constraint_count (t c Fp P nIn nOut : Nat) (C M : Nat → F)
    (heven : Fp % 2 = 0) (h4 : 4 ≤ Fp) (hP : 1 ≤ P) :
    (mkMaster t c Fp P nIn nOut true C M).constraints.length
      = 3 * (t * Fp + c * P) + nOut := by
  rw [mkMaster_constraints_length_raw]
  obtain ⟨q, rfl⟩ : ∃ q, Fp = 2 * q := ⟨Fp / 2, by omega⟩
  obtain ⟨q', rfl⟩ : ∃ q', q = q' + 2 := ⟨q - 2, by omega⟩
  have h1 : partial_begin (2 * (q' + 2)) - 1 = q' + 1 := by
    unfold partial_begin
    omega
  have h2 : total_rounds (2 * (q' + 2)) P - 1 - partial_end (2 * (q' + 2)) P
      = q' + 1 := by
    unfold total_rounds partial_end partial_begin
    omega
  rw [h1, h2]
  ring

/-- Witness for C2 at Poseidon128<1,1> (t=6, c=1, F=8, P=57, nOut=1):
316 constraints. -/
theorem C2_witness :
    (mkMaster 6 1 8 57 1 1 true (fun _ => (0 : Int)) (fun _ => 0)).constraints.length
      = 316 := by
  have h := C2_constraint_count 6 1 8 57 1 1 (fun _ => (0 : Int)) (fun _ => 0)
    (by decide) (by decide) (by decide)
  rw [h]

/-- Witness for C3 at a concrete round: the output evaluates to the
claimed three-part sum (here `5 + 12 + 14 = 31`). -/
theorem C3_witness :
    lcVal ([(1, (3 : Int)), (3, 5)] : Store Int)
      ((make_outputs 2 1 2 1 7 (fun n => (n : Int) + 1)
        [[(1, 1)], [(1, 2), (2, 4)]] [⟨1, 2, 3⟩]).getD 0 []) = 31 := by
  have h := (C3_round_output_formula 2 1 2 1 7 (fun n => (n : Int) + 1)
    [[(1, 1)], [(1, 2), (2, 4)]] [⟨1, 2, 3⟩] [(1, 3), (3, 5)] 0 (by decide)).1
  rw [h]
  decide

/-- Witness for C4 at a concrete blake oracle and seed. -/
theorem C4_witness :
    (poseidon_constants_fill 7 3 (fun L d => List.replicate L (d.length % 3))
      [5] 2).length = 2 ∧
    (poseidon_constants_fill 7 3 (fun L d => List.replicate L (d.length % 3))
        [5] 2).getD 1 0
      = bytes_to_FieldT_littleendian 7
          (specStream (fun L d => List.replicate L (d.length % 3))
            (output_size 3) [5] 1) := by
  have h := C4_constants_generator 7 3
    (fun L d => List.replicate L (d.length % 3)) [5] 2 (by decide)
  exact ⟨h.1, h.2.1 1 (by decide)⟩

/-- Witness for C5 at a concrete blake oracle, `p = 5`, `t = 1`. -/
theorem C5_witness :
    (poseidon_params 5 3 (fun L d => List.replicate L (d.length % 7)) 1 1 0).M.length
      = 1 * 1 ∧
    (poseidon_params 5 3 (fun L d => List.replicate L (d.length % 7)) 1 1 0).M.getD
        (0 * 1 + 0) 0
      = ((poseidon_constants_fill 5 3 (fun L d => List.replicate L (d.length % 7))
            (strBytes "poseidon_matrix_0000") (1 * 2)).getD 0 0
          - (poseidon_constants_fill 5 3 (fun L d => List.replicate L (d.length % 7))
            (strBytes "poseidon_matrix_0000") (1 * 2)).getD (1 + 0) 0)⁻¹ ∧
    (poseidon_params 5 3 (fun L d => List.replicate L (d.length % 7)) 1 1 0).C.length
      = 1 + 0 := by
  have h := C5_matrix_and_params 5 3
    (fun L d => List.replicate L (d.length % 7)) 1 1 0 (by decide)
  exact ⟨h.1, h.2.1 0 0 (by decide) (by decide), h.2.2⟩

/-- C6 as frozen is false on the code: for `(t,c,F,P) = (1,1,8,1)` the
master's suffix full-round vector has 3 elements, not `F/2 = 4`
(the code builds suffix rounds for indices `[F/2+P, F+P−1)`). -/
theorem C6_counterexample :
    (mkMaster 1 1 8 1 1 1 true (fun _ => (0 : Int)) (fun _ => 0)).suffixRounds.length
      ≠ 8 / 2 := by decide

/-- C6 (amended): the master owns one first round, `F/2 − 1` full prefix
rounds, `P` partial rounds, `F/2 − 1` full suffix rounds, and one last
round, and these counts sum to `F + P` rounds total. -/
theorem C6_amended_round_counts (t c Fp P nIn nOut : Nat) (co : Bool)
    (C M : Nat → F) (heven : Fp % 2 = 0) (h4 : 4 ≤ Fp) (hP : 1 ≤ P) :
    (mkMaster t c Fp P nIn nOut co C M).prefixRounds.length = Fp / 2 - 1 ∧
    (mkMaster t c Fp P nIn nOut co C M).partialRounds.length = P ∧
    (mkMaster t c Fp P nIn nOut co C M).suffixRounds.length = Fp / 2 - 1 ∧
    1 + (Fp / 2 - 1) + P + (Fp / 2 - 1) + 1 = Fp + P := by
  refine ⟨?_, ?_, ?_, by omega⟩
  · rw [show (mkMaster t c Fp P nIn nOut co C M).prefixRounds.length
        = partial_begin Fp - 1 from make_rounds_go_length t t t t C M _ 1 _ _]
    rfl
  · exact make_rounds_go_length t c t t C M P (partial_begin Fp) _ _
  · rw [show (mkMaster t c Fp P nIn nOut co C M).suffixRounds.length
        = total_rounds Fp P - 1 - partial_end Fp P
        from make_rounds_go_length t t t t C M _ (partial_end Fp P) _ _]
    unfold total_rounds partial_end partial_begin
    omega

/-- Witness for the amended C6 at `(t,c,F,P) = (1,1,8,1)`. -/
theorem C6_witness :
    (mkMaster 1 1 8 1 1 1 true (fun _ => (0 : Int)) (fun _ => 0)).prefixRounds.length
      = 8 / 2 - 1 ∧
    (mkMaster 1 1 8 1 1 1 true (fun _ => (0 : Int)) (fun _ => 0)).partialRounds.length
      = 1 ∧
    (mkMaster 1 1 8 1 1 1 true (fun _ => (0 : Int)) (fun _ => 0)).suffixRounds.length
      = 8 / 2 - 1 ∧
    1 + (8 / 2 - 1) + 1 + (8 / 2 - 1) + 1 = 8 + 1 :=
  C6_amended_round_counts 1 1 8 1 1 1 true (fun _ => (0 : Int)) (fun _ => 0)
    (by decide) (by decide) (by decide)

/-- C7: the stamper's index translation τ satisfies `τ(0) = 0`,
`τ(k) = instance_inputs[k−1].index` for `k ∈ [1, nInputs]`, and
`τ(k) = offset + (k − 1 − nInputs)` for `k > nInputs`, where
`offset = pb_user.num_variables() + 1` recorded at construction time. -/
theorem C7_translate (pb : UserPB F) (ins : List Nat) (mnv : Nat) :
    translate (mkInstance pb ins mnv).1 0 = 0 ∧
    (∀ k, 1 ≤ k → k ≤ ins.length →
      translate (mkInstance pb ins mnv).1 k = ins.getD (k - 1) 0) ∧
    (∀ k, ins.length < k →
      translate (mkInstance pb ins mnv).1 k
        = (pb.numVars + 1) + (k - 1 - ins.length)) := by
  have hii : (mkInstance pb ins mnv).1.instance_inputs = ins := rfl
  have hoff : (mkInstance pb ins mnv).1.instance_variables_offset
      = pb.numVars + 1 := rfl
  refine ⟨rfl, ?_, ?_⟩
  · intro k hk1 hk2
    unfold translate
    rw [hii, if_neg (by omega), if_pos hk2]
  · intro k hk
    unfold translate
    rw [hii, hoff, if_neg (by omega), if_neg (by omega)]
    omega

/-- Witness for C7 at a concrete instance. -/
theorem C7_witness :
    translate (mkInstance (⟨5, []⟩ : UserPB Int) [9] 4).1 0 = 0 ∧
    translate (mkInstance (⟨5, []⟩ : UserPB Int) [9] 4).1 1 = 9 ∧
    translate (mkInstance (⟨5, []⟩ : UserPB Int) [9] 4).1 2 = (5 + 1) + (2 - 1 - 1) := by
  have h := C7_translate (⟨5, []⟩ : UserPB Int) [9] 4
  exact ⟨h.1, h.2.1 1 (by decide) (by decide), h.2.2 2 (by decide)⟩

/-- C8 as frozen is false on the code: a stamped instance's
`generate_r1cs_witness` writes the caller's input values into the master
protoboard's value table (`master.pb.val(1+i) = ...`) and runs the
master's witness there, so the master protoboard is not read-only after
initialization.  Concretely, the master's value slot 1 changes. -/
theorem C8_counterexample :
    ((instance_generate_r1cs_witness ⟨[5], 7⟩
        (mkMaster 1 1 4 1 1 1 true (fun _ => (1 : Int)) (fun _ => 1))
        ⟨17, [], []⟩ [(5, 2)]).1).vals.get 1
      ≠ ((⟨17, [], []⟩ : MasterPB Int)).vals.get 1 := by decide

/-- C8 (amended): a stamped instance's `generate_r1cs_constraints` does
not modify the master protoboard at all; `generate_r1cs_witness` modifies
only the master's value table, leaving its constraint list and variable
count unchanged; and `swapAB` is guarded by a once-flag, so its mutation
runs at most once (a second invocation changes nothing). -/
theorem C8_amended_master_frame (g : PoseidonInstance) (m : Master F)
    (mpb : MasterPB F) (pb : UserPB F) (uvals : Store F) (flag : Bool) :
    (instance_generate_r1cs_constraints g mpb pb).1 = mpb ∧
    (instance_generate_r1cs_witness g m mpb uvals).1.constraints = mpb.constraints ∧
    (instance_generate_r1cs_witness g m mpb uvals).1.numVars = mpb.numVars ∧
    swapAB (swapAB flag mpb).1 (swapAB flag mpb).2 = swapAB flag mpb := by
  refine ⟨rfl, rfl, rfl, ?_⟩
  unfold swapAB
  cases flag with
  | true => rfl
  | false => rfl

/-- C9 as frozen is false on the code: the only construction-time
assertions are `nInputs ≤ t` and `nOutputs ≤ t` in `Poseidon_Round`;
with `t = 2`, `c = 3 > t` and odd `F = 5` every assertion still passes,
so no abort occurs. -/
theorem C9_counterexample :
    masterAsserts 2 3 5 1 1 1 (fun _ => (0 : Int)) (fun _ => 0) = true ∧
    5 % 2 = 1 ∧ 2 < 3 := by decide

/-- C9 (amended): the assertions evaluated during master construction
reduce exactly to `nInputs ≤ t ∧ nOutputs ≤ t`; neither the parity of `F`
nor `c > t` is checked. -/
theorem C9_amended_asserts (t c Fp P nIn nOut : Nat) (C M : Nat → F) :
    masterAsserts t c Fp P nIn nOut C M
      = (decide (nIn ≤ t) && decide (nOut ≤ t)) := by
  set inputs : List (LC F) := (List.range nIn).map (fun k => [(k + 1, 1)]) with hinputs
  set fr := mkRound t t nIn t (C 0) M inputs nIn with hfr
  set pre := make_rounds_go t t t t C M (partial_begin Fp - 1) 1 fr.1.outputs fr.2
    with hpre
  set par := make_rounds_go t c t t C M P (partial_begin Fp) pre.2.1 pre.2.2
    with hpar
  set suf := make_rounds_go t t t t C M (total_rounds Fp P - 1 - partial_end Fp P)
    (partial_end Fp P) par.2.1 par.2.2 with hsuf
  set lr := mkRound t t t nOut (C (total_rounds Fp P - 1)) M suf.2.1 suf.2.2
    with hlr
  have hm : masterAsserts t c Fp P nIn nOut C M
      = (fr.1 :: (pre.1 ++ par.1 ++ suf.1 ++ [lr.1])).all (Round.asserts t) := rfl
  rw [hm, List.all_cons, List.all_append, List.all_append, List.all_append]
  have hallmid : ∀ (nSBox k i : Nat) (state : List (LC F)) (nv : Nat),
      (make_rounds_go t nSBox t t C M k i state nv).1.all (Round.asserts t) = true := by
    intro nSBox k i state nv
    rw [List.all_eq_true]
    intro r hr
    obtain ⟨h1, h2⟩ := make_rounds_go_shape t nSBox t t C M k i state nv r hr
    unfold Round.asserts
    rw [h1, h2]
    simp
  have hfra : Round.asserts t fr.1 = (decide (nIn ≤ t) && true) := by
    unfold Round.asserts
    rw [show fr.1.nInputs = nIn from rfl,
      show fr.1.outputs.length = t from
        mkRound_outputs_length t t nIn t (C 0) M inputs nIn]
    simp
  have hlra : Round.asserts t lr.1 = (true && decide (nOut ≤ t)) := by
    unfold Round.asserts
    rw [show lr.1.nInputs = t from rfl,
      show lr.1.outputs.length = nOut from
        mkRound_outputs_length t t t nOut (C (total_rounds Fp P - 1)) M suf.2.1 suf.2.2]
    simp
  rw [hpre, hallmid, hpar, hallmid, hsuf, hallmid, hfra,
    show ([lr.1].all (Round.asserts t)) = Round.asserts t lr.1 by
      rw [List.all_cons, List.all_nil, Bool.and_true],
    hlra]
  simp

/-- C10: constructing a stamped instance on a caller protoboard bumps its
variable count by exactly `master.pb.num_variables() − nInputs`, appends
no constraints, and two instances constructed in sequence occupy disjoint
auxiliary variable blocks. -/
theorem C10_constructor_frame (pb : UserPB F) (ins1 ins2 : List Nat) (mnv : Nat) :
    (mkInstance pb ins1 mnv).2.numVars = pb.numVars + (mnv - ins1.length) ∧
    (mkInstance pb ins1 mnv).2.constraints = pb.constraints ∧
    (∀ i j : Nat, i < mnv - ins1.length →
      (mkInstance pb ins1 mnv).1.instance_variables_offset + i ≠
        (mkInstance (mkInstance pb ins1 mnv).2 ins2 mnv).1.instance_variables_offset + j) := by
  refine ⟨rfl, rfl, ?_⟩
  intro i j hi
  show pb.numVars + 1 + i ≠ pb.numVars + (mnv - ins1.length) + 1 + j
  omega

/-- Witness for C10 at a concrete pair of instances. -/
theorem C10_witness :
    (mkInstance (⟨5, []⟩ : UserPB Int) [9] 4).2.numVars = 5 + (4 - 1) ∧
    (mkInstance (⟨5, []⟩ : UserPB Int) [9] 4).2.constraints = [] ∧
    (mkInstance (⟨5, []⟩ : UserPB Int) [9] 4).1.instance_variables_offset + 0 ≠
      (mkInstance (mkInstance (⟨5, []⟩ : UserPB Int) [9] 4).2 [3] 4).1.instance_variables_offset + 0 := by
  have h := C10_constructor_frame (⟨5, []⟩ : UserPB Int) [9] [3] 4
  exact ⟨h.1, h.2.1, h.2.2 0 0 (by decide)⟩

end Ethsnarks
